import Mathlib

/-!
# Verification of the archinfo measure library (`measures.py`)

Shallow embedding of the numeric measure functions of the repository over the
real numbers.  Arrays are modelled as `List ℝ`.  The floating-point sentinel
NaN returned on precondition failure is modelled as `none` in an `Option ℝ`
result, and the warning side channel (`warnings.warn`) is modelled as a list
of emitted message strings returned alongside the value.  `np.argsort`
followed by fancy indexing of both the period and the mass array is modelled
as a stable sort of the zipped (period, mass) pairs by period.
-/

noncomputable section

/-- `MSME` from measures.py: Earth-to-Sun mass ratio (M_sun/M_earth). -/
def MSME : ℝ := 332948.6

/-- `BIGG` from measures.py: Newton's constant in SI units. -/
def BIGG : ℝ := 6.67e-11

/-- `RSUN` from measures.py: solar radius in meters. -/
def RSUN : ℝ := 6.957e8

/-- `MSUN` from measures.py: solar mass in kilograms. -/
def MSUN : ℝ := 1.988e30

/-- `P_to_a` from measures.py: period (days) to semimajor axis (solar radii)
via Kepler's third law. -/
def P_to_a (P Mstar : ℝ) : ℝ :=
  let Pearth : ℝ := 365.24
  let aearth : ℝ := 215.05
  aearth * ((P / Pearth) ^ 2 * (1 / Mstar)) ^ ((1 : ℝ) / 3)

/-- `calculate_duration` from measures.py: circular-orbit transit duration.
The python float exponents `1/3`, `2/3`, `4/3`, `1/2` are modelled as exact
real exponents of `Real.rpow`. -/
def calculate_duration (period rho rprs cosi : ℝ) : ℝ :=
  let G : ℝ := BIGG / RSUN ^ 3 * MSUN * ((24 * 3600 : ℝ)) ^ 2
  let term3 : ℝ := ((3 * period) / (G * rho * Real.pi ^ 2)) ^ ((1 : ℝ) / 3)
  let term2a : ℝ := (1 + rprs) ^ 2
  let term2b : ℝ := ((G * rho) / (3 * Real.pi)) ^ ((2 : ℝ) / 3)
  let term2c : ℝ := period ^ ((4 : ℝ) / 3) * cosi ^ 2
  let term2 : ℝ := (term2a - term2b * term2c) ^ ((1 : ℝ) / 2)
  term3 * term2

/-- `np.sum` on a real array. -/
def np_sum (xs : List ℝ) : ℝ := xs.sum

/-- `np.mean` on a real array. -/
def np_mean (xs : List ℝ) : ℝ := xs.sum / xs.length

/-- `np.std` on a real array: numpy computes
`sqrt(mean(abs(x - x.mean())**2))` with population (divide-by-N)
normalization. -/
def np_std (xs : List ℝ) : ℝ :=
  Real.sqrt (np_mean (xs.map fun x => |x - np_mean xs| ^ 2))

/-- `np.max` on a nonempty real array (the empty case never occurs behind the
length guards of the measures; it is given the junk value 0). -/
def np_max : List ℝ → ℝ
  | [] => 0
  | x :: xs => xs.foldl max x

/-- `np.min` on a nonempty real array (junk value 0 on the empty array). -/
def np_min : List ℝ → ℝ
  | [] => 0
  | x :: xs => xs.foldl min x

/-- `calculate_flatness` from measures.py:
`np.std(data_dur - model_dur) / np.sqrt(np.mean(data_dur**2))`. -/
def calculate_flatness (data_dur model_dur : List ℝ) : ℝ :=
  np_std (List.zipWith (· - ·) data_dur model_dur) /
    Real.sqrt (np_mean (data_dur.map fun x => x ^ 2))

/-- `dynamical_mass` from measures.py: `np.sum(mp)/MSME/Mstar`. -/
def dynamical_mass (mp : List ℝ) (Mstar : ℝ) : ℝ :=
  np_sum mp / MSME / Mstar

/-- Modelled from the spec: the external collaborator module `LMC`
(imported as `.LMC` by measures.py but not present under the repository's
source here).  Per the spec it supplies a disequilibrium statistic `D` and a
complexity statistic `C` over probability-like vectors; the core consumes
this contract without depending on the implementation, so both are left as
arbitrary parameters. -/
structure LMC where
  D : List ℝ → ℝ
  C : List ℝ → ℝ

/-- `mass_partitioning` from measures.py: `LMC.D(masses/np.sum(masses))`,
parameterized by the collaborator instance. -/
def mass_partitioning (lmc : LMC) (masses : List ℝ) : ℝ :=
  lmc.D (masses.map fun m => m / np_sum masses)

/-- Comparison of (period, mass) pairs by period, used to model
`np.argsort(periods)` applied to both arrays. -/
def keyLE (p q : ℝ × ℝ) : Prop := p.1 ≤ q.1

instance : DecidableRel keyLE := fun p q => Real.decidableLE p.1 q.1

instance : IsTotal (ℝ × ℝ) keyLE := ⟨fun a b => le_total a.1 b.1⟩

instance : IsTrans (ℝ × ℝ) keyLE := ⟨fun _ _ _ hab hbc => le_trans hab hbc⟩

/-- `characteristic_spacing` from measures.py.  Returns the value (or `none`
for the NaN sentinel) together with the list of emitted warning messages. -/
def characteristic_spacing (periods mp : List ℝ) (Mstar : ℝ) (warn : Bool) :
    Option ℝ × List String :=
  if periods.length < 2 then
    (none,
      if warn then ["Characteristic spacing is undefined for S < 2; returning NaN"]
      else [])
  else
    let sortedPairs := List.insertionSort keyLE (periods.zip mp)
    let periodsS := sortedPairs.map Prod.fst
    let mpS := sortedPairs.map Prod.snd
    let a := periodsS.map fun P => P_to_a P Mstar
    let radius_H :=
      List.zipWith
        (fun msum asum => (msum / (3 * Mstar * MSME)) ^ ((1 : ℝ) / 3) * asum / 2)
        (List.zipWith (· + ·) mpS.tail mpS.dropLast)
        (List.zipWith (· + ·) a.tail a.dropLast)
    let delta_H :=
      List.zipWith (· / ·) (List.zipWith (· - ·) a.tail a.dropLast) radius_H
    (some (np_mean delta_H), [])

/-- `gap_complexity` from measures.py, parameterized by the collaborator
instance.  Returns the value (or `none` for the NaN sentinel) together with
the list of emitted warning messages. -/
def gap_complexity (lmc : LMC) (periods : List ℝ) (warn : Bool) :
    Option ℝ × List String :=
  if periods.length < 3 then
    (none,
      if warn then ["Complexity is undefined for N < 3; returning NaN"]
      else [])
  else
    let P := List.insertionSort (· ≤ ·) periods
    let ratios := List.zipWith (· / ·) P.tail P.dropLast
    let pp := ratios.map fun r => Real.log r / Real.log (np_max P / np_min P)
    (some (lmc.C pp), [])

/-- Spec-side formula: the normalized Hill spacing of the adjacent sorted
pair `(i, i+1)`, written index-wise exactly as in the specification:
`R_H = ((m_i+m_(i+1))/(3*Mstar*MSME))^(1/3) * (a_i+a_(i+1))/2` and
`Delta_H = (a_(i+1)-a_i)/R_H`. -/
def hill_delta (a ms : List ℝ) (Mstar : ℝ) (i : ℕ) : ℝ :=
  let R_H := ((ms.getD i 0 + ms.getD (i + 1) 0) / (3 * Mstar * MSME)) ^ ((1 : ℝ) / 3) *
    ((a.getD i 0 + a.getD (i + 1) 0) / 2)
  (a.getD (i + 1) 0 - a.getD i 0) / R_H

/-- Spec-side formula: population (divide-by-N) standard deviation,
`sqrt((sum of (x_i - mean)^2) / N)`. -/
def pop_std (xs : List ℝ) : ℝ :=
  Real.sqrt ((xs.map fun x => (x - xs.sum / xs.length) ^ 2).sum / xs.length)

/-- Spec-side formula: the constant `G_normalized = G / Rsun^3 * Msun * (86400 s)^2`. -/
def G_spec : ℝ := BIGG / RSUN ^ 3 * MSUN * (86400 : ℝ) ^ 2

/-- Spec-side formula: the transit duration written as in the specification,
with the square root spelled `Real.sqrt`. -/
def duration_spec (period rho rprs cosi : ℝ) : ℝ :=
  ((3 * period) / (G_spec * rho * Real.pi ^ 2)) ^ ((1 : ℝ) / 3) *
    Real.sqrt ((1 + rprs) ^ 2 -
      ((G_spec * rho) / (3 * Real.pi)) ^ ((2 : ℝ) / 3) * (period ^ ((4 : ℝ) / 3) * cosi ^ 2))

/-- A trivial concrete collaborator instance, used to instantiate witnesses. -/
def lmc0 : LMC := ⟨fun _ => 0, fun _ => 0⟩

/-- Adjacent-slice arithmetic: pairing `xs.tail` with `xs.dropLast` agrees
with pairing `xs.tail` with `xs`, as `zipWith` truncates to the shorter
list. -/
theorem zipWith_tail_dropLast (f : ℝ → ℝ → ℝ) :
    ∀ xs : List ℝ, List.zipWith f xs.tail xs.dropLast = List.zipWith f xs.tail xs := by
  intro xs
  induction xs with
  | nil => rfl
  | cons x xs ih =>
    cases xs with
    | nil => rfl
    | cons y rest =>
      have ih' := ih
      simp only [List.tail_cons] at ih'
      show List.zipWith f (y :: rest) ((x :: y :: rest).dropLast) =
        List.zipWith f (y :: rest) (x :: y :: rest)
      rw [show (x :: y :: rest).dropLast = x :: (y :: rest).dropLast from rfl]
      simp only [List.zipWith_cons_cons]
      rw [ih']

/-- Adjacent pairing written index-wise over `List.range`. -/
theorem zipWith_tail_range (f : ℝ → ℝ → ℝ) :
    ∀ xs : List ℝ, List.zipWith f xs.tail xs =
      (List.range (xs.length - 1)).map fun i => f (xs.getD (i + 1) 0) (xs.getD i 0) := by
  intro xs
  induction xs with
  | nil => rfl
  | cons x xs ih =>
    cases xs with
    | nil => rfl
    | cons y rest =>
      have ih' := ih
      simp only [List.tail_cons] at ih'
      show List.zipWith f (y :: rest) (x :: y :: rest) = _
      simp only [List.zipWith_cons_cons, List.length_cons]
      rw [show rest.length + 1 + 1 - 1 = rest.length + 1 from rfl,
        List.range_succ_eq_map, List.map_cons, List.map_map]
      simp only [List.getD_cons_succ, List.getD_cons_zero, Function.comp]
      rw [ih']
      simp only [List.length_cons, List.getD_cons_succ,
        show rest.length + 1 - 1 = rest.length from rfl]
      congr 1

/-- Zipping two pointwise images of the same list. -/
theorem zipWith_map_same {α : Type} (g : ℝ → ℝ → ℝ) (u v : α → ℝ) :
    ∀ l : List α, List.zipWith g (l.map u) (l.map v) = l.map fun i => g (u i) (v i) := by
  intro l
  induction l with
  | nil => rfl
  | cons a l ih => simp only [List.map_cons, List.zipWith_cons_cons, ih]

/-- Zipping pointwise images (by the same function) of two lists. -/
theorem zipWith_map_both (g : ℝ → ℝ → ℝ) (u : ℝ → ℝ) :
    ∀ l1 l2 : List ℝ, List.zipWith g (l1.map u) (l2.map u) =
      List.zipWith (fun a b => g (u a) (u b)) l1 l2 := by
  intro l1
  induction l1 with
  | nil => intro l2; rfl
  | cons a l1 ih =>
    intro l2
    cases l2 with
    | nil => rfl
    | cons b l2 => simp only [List.map_cons, List.zipWith_cons_cons, ih]

/-- Folding `min` from a lower bound of the list returns the bound. -/
theorem foldl_min_of_le : ∀ (l : List ℝ) (x : ℝ), (∀ y ∈ l, x ≤ y) → l.foldl min x = x := by
  intro l
  induction l with
  | nil => intro x _; rfl
  | cons y l ih =>
    intro x h
    show l.foldl min (min x y) = x
    rw [min_eq_left (h y (List.mem_cons_self y l))]
    exact ih x fun z hz => h z (List.mem_cons_of_mem y hz)

/-- `np.min` of a sorted nonempty array is its first element. -/
theorem np_min_sorted (xs : List ℝ) (hs : xs.Sorted (· ≤ ·)) (hne : xs ≠ []) :
    np_min xs = xs.getD 0 0 := by
  cases xs with
  | nil => exact absurd rfl hne
  | cons x l =>
    show l.foldl min x = x
    exact foldl_min_of_le l x (List.sorted_cons.mp hs).1

/-- `np.max` of a sorted nonempty array is its last element. -/
theorem np_max_sorted : ∀ xs : List ℝ, xs.Sorted (· ≤ ·) → xs ≠ [] →
    np_max xs = xs.getD (xs.length - 1) 0 := by
  intro xs
  induction xs with
  | nil => intro _ h; exact absurd rfl h
  | cons x l ih =>
    intro hs _
    cases l with
    | nil => rfl
    | cons y rest =>
      have h1 : x ≤ y := (List.sorted_cons.mp hs).1 y (List.mem_cons_self y rest)
      have h2 := (List.sorted_cons.mp hs).2
      have hrec := ih h2 (by simp)
      show (y :: rest).foldl max x = _
      rw [show (y :: rest).foldl max x = rest.foldl max (max x y) from rfl,
        max_eq_right h1]
      have hnp : np_max (y :: rest) = rest.foldl max y := rfl
      rw [← hnp, hrec]
      simp [List.length_cons]

/-- Re-zipping the two projections of a list of pairs recovers the list. -/
theorem zip_map_fst_snd_self : ∀ l : List (ℝ × ℝ), (l.map Prod.fst).zip (l.map Prod.snd) = l := by
  intro l
  induction l with
  | nil => rfl
  | cons a l ih => simp only [List.map_cons, List.zip_cons_cons, ih]

/-- Evaluation of `characteristic_spacing` past its length guard. -/
theorem characteristic_spacing_body (periods mp : List ℝ) (Mstar : ℝ) (warn : Bool)
    (h : ¬periods.length < 2) :
    characteristic_spacing periods mp Mstar warn =
      (some (np_mean (List.zipWith (· / ·)
        (List.zipWith (· - ·)
          (((List.insertionSort keyLE (periods.zip mp)).map Prod.fst).map
            fun P => P_to_a P Mstar).tail
          (((List.insertionSort keyLE (periods.zip mp)).map Prod.fst).map
            fun P => P_to_a P Mstar).dropLast)
        (List.zipWith
          (fun msum asum => (msum / (3 * Mstar * MSME)) ^ ((1 : ℝ) / 3) * asum / 2)
          (List.zipWith (· + ·)
            ((List.insertionSort keyLE (periods.zip mp)).map Prod.snd).tail
            ((List.insertionSort keyLE (periods.zip mp)).map Prod.snd).dropLast)
          (List.zipWith (· + ·)
            (((List.insertionSort keyLE (periods.zip mp)).map Prod.fst).map
              fun P => P_to_a P Mstar).tail
            (((List.insertionSort keyLE (periods.zip mp)).map Prod.fst).map
              fun P => P_to_a P Mstar).dropLast)))), []) := by
  unfold characteristic_spacing
  rw [if_neg h]

/-- Evaluation of `gap_complexity` past its length guard. -/
theorem gap_complexity_body (lmc : LMC) (periods : List ℝ) (warn : Bool)
    (h : ¬periods.length < 3) :
    gap_complexity lmc periods warn =
      (some (lmc.C ((List.zipWith (· / ·)
          (List.insertionSort (· ≤ ·) periods).tail
          (List.insertionSort (· ≤ ·) periods).dropLast).map
        fun r => Real.log r /
          Real.log (np_max (List.insertionSort (· ≤ ·) periods) /
            np_min (List.insertionSort (· ≤ ·) periods)))), []) := by
  unfold gap_complexity
  rw [if_neg h]

/-- The code's slice-arithmetic Hill-spacing list equals the index-wise
spec formula `hill_delta` mapped over the pair indices. -/
theorem delta_list_eq (A M : List ℝ) (Mstar : ℝ) (hAM : M.length = A.length) :
    List.zipWith (· / ·) (List.zipWith (· - ·) A.tail A.dropLast)
      (List.zipWith (fun msum asum => (msum / (3 * Mstar * MSME)) ^ ((1 : ℝ) / 3) * asum / 2)
        (List.zipWith (· + ·) M.tail M.dropLast)
        (List.zipWith (· + ·) A.tail A.dropLast)) =
    (List.range (A.length - 1)).map fun i => hill_delta A M Mstar i := by
  rw [zipWith_tail_dropLast, zipWith_tail_dropLast, zipWith_tail_dropLast,
    zipWith_tail_range, zipWith_tail_range, zipWith_tail_range, hAM,
    zipWith_map_same, zipWith_map_same]
  apply List.map_congr_left
  intro i _
  simp only [hill_delta]
  rw [add_comm (M.getD (i + 1) 0) (M.getD i 0), add_comm (A.getD (i + 1) 0) (A.getD i 0),
    mul_div_assoc]

/-- Claim C1: for at least 2 positive periods with corresponding masses and a
positive stellar mass, `characteristic_spacing` sorts the planets by
ascending period (a sorted rearrangement `ps, ms` of the zipped input
exists), converts periods to semimajor axes via `P_to_a`, computes for each
adjacent sorted pair the mutual Hill radius and normalized spacing of
`hill_delta`, and returns the arithmetic mean of all the spacings. -/
theorem characteristic_spacing_formula (periods mp : List ℝ) (Mstar : ℝ) (warn : Bool)
    (hlen : 2 ≤ periods.length) (hlen2 : mp.length = periods.length)
    (hpos : ∀ p ∈ periods, 0 < p) (hM : 0 < Mstar) :
    ∃ ps ms : List ℝ,
      (ps.zip ms).Perm (periods.zip mp) ∧ ps.Sorted (· ≤ ·) ∧
      ps.length = periods.length ∧ ms.length = mp.length ∧
      characteristic_spacing periods mp Mstar warn =
        (some (((List.range (periods.length - 1)).map
            (hill_delta (ps.map fun P => P_to_a P Mstar) ms Mstar)).sum /
          ((periods.length - 1 : ℕ) : ℝ)), []) := by
  have hzip : (periods.zip mp).length = periods.length := by
    rw [List.length_zip, hlen2, min_self]
  have hperm := List.perm_insertionSort keyLE (periods.zip mp)
  have hsorted := List.sorted_insertionSort keyLE (periods.zip mp)
  have hslen : (List.insertionSort keyLE (periods.zip mp)).length = periods.length := by
    rw [hperm.length_eq, hzip]
  refine ⟨(List.insertionSort keyLE (periods.zip mp)).map Prod.fst,
    (List.insertionSort keyLE (periods.zip mp)).map Prod.snd, ?_, ?_, ?_, ?_, ?_⟩
  · rw [zip_map_fst_snd_self]
    exact hperm
  · exact List.Pairwise.map Prod.fst (fun a b h => h) hsorted
  · rw [List.length_map, hslen]
  · rw [List.length_map, hslen, hlen2]
  · rw [characteristic_spacing_body periods mp Mstar warn (by omega)]
    rw [delta_list_eq _ _ Mstar (by simp)]
    unfold np_mean
    simp only [List.length_map, List.length_range]
    rw [hslen]

/-- Witness for C1 at `periods = [2, 1]`, `mp = [3, 4]`, `Mstar = 1`. -/
theorem characteristic_spacing_formula_witness :
    ∃ ps ms : List ℝ,
      (ps.zip ms).Perm (([2, 1] : List ℝ).zip ([3, 4] : List ℝ)) ∧ ps.Sorted (· ≤ ·) ∧
      ps.length = ([2, 1] : List ℝ).length ∧ ms.length = ([3, 4] : List ℝ).length ∧
      characteristic_spacing [2, 1] [3, 4] 1 false =
        (some (((List.range (([2, 1] : List ℝ).length - 1)).map
            (hill_delta (ps.map fun P => P_to_a P 1) ms 1)).sum /
          ((([2, 1] : List ℝ).length - 1 : ℕ) : ℝ)), []) :=
  characteristic_spacing_formula [2, 1] [3, 4] 1 false (by simp) (by simp)
    (by intro p hp; rcases List.mem_cons.mp hp with h | h; · rw [h]; norm_num
        · simp only [List.mem_singleton] at h; rw [h]; norm_num)
    (by norm_num)

/-- Claim C3: for at least 3 positive, not-all-equal periods,
`gap_complexity` sorts the periods ascending and returns the collaborator's
`C` applied to the log-period gap fractions
`ln(P_(i+1)/P_i) / ln(P_max/P_min)` of adjacent sorted pairs; under the
collaborator contract that `C` of a uniform distribution is `0`, the
geometric sequence `[1, 10, 100]` yields exactly `0`. -/
theorem gap_complexity_formula (lmc : LMC) (warn : Bool)
    (huni : ∀ l : List ℝ, l ≠ [] → (∀ x ∈ l, x = 1 / (l.length : ℝ)) → lmc.C l = 0)
    (periods : List ℝ) (hlen : 3 ≤ periods.length) (hpos : ∀ p ∈ periods, 0 < p)
    (hne : ∃ p ∈ periods, ∃ q ∈ periods, p ≠ q) :
    (∃ P : List ℝ, P.Perm periods ∧ P.Sorted (· ≤ ·) ∧
      gap_complexity lmc periods warn =
        (some (lmc.C ((List.range (periods.length - 1)).map fun i =>
          Real.log (P.getD (i + 1) 0 / P.getD i 0) /
            Real.log (P.getD (periods.length - 1) 0 / P.getD 0 0))), [])) ∧
    gap_complexity lmc [1, 10, 100] warn = (some 0, []) := by
  constructor
  · refine ⟨List.insertionSort (· ≤ ·) periods, List.perm_insertionSort _ periods,
      List.sorted_insertionSort _ periods, ?_⟩
    have hPlen : (List.insertionSort (· ≤ ·) periods).length = periods.length :=
      (List.perm_insertionSort _ periods).length_eq
    have hPne : List.insertionSort (· ≤ ·) periods ≠ [] := by
      intro h
      rw [h] at hPlen
      simp at hPlen
      omega
    rw [gap_complexity_body lmc periods warn (by omega),
      np_max_sorted _ (List.sorted_insertionSort _ periods) hPne,
      np_min_sorted _ (List.sorted_insertionSort _ periods) hPne,
      zipWith_tail_dropLast, zipWith_tail_range, List.map_map, hPlen]
    simp only [Function.comp_def]
  · have hsorted : ([1, 10, 100] : List ℝ).Sorted (· ≤ ·) := by
      norm_num [List.sorted_cons, List.mem_cons, List.mem_singleton]
    rw [gap_complexity_body lmc [1, 10, 100] warn (by simp),
      hsorted.insertionSort_eq]
    have hmax : np_max ([1, 10, 100] : List ℝ) = 100 := by
      show ([10, 100] : List ℝ).foldl max 1 = 100
      rw [show ([10, 100] : List ℝ).foldl max 1 = max (max 1 10) 100 from rfl,
        max_eq_right (by norm_num : (1 : ℝ) ≤ 10),
        max_eq_right (by norm_num : (10 : ℝ) ≤ 100)]
    have hmin : np_min ([1, 10, 100] : List ℝ) = 1 := by
      show ([10, 100] : List ℝ).foldl min 1 = 1
      rw [show ([10, 100] : List ℝ).foldl min 1 = min (min 1 10) 100 from rfl,
        min_eq_left (by norm_num : (1 : ℝ) ≤ 10),
        min_eq_left (by norm_num : (1 : ℝ) ≤ 100)]
    rw [hmax, hmin]
    have hl : Real.log 10 ≠ 0 := ne_of_gt (Real.log_pos (by norm_num : (1 : ℝ) < 10))
    have hpp : (List.zipWith (· / ·) ([1, 10, 100] : List ℝ).tail
        ([1, 10, 100] : List ℝ).dropLast).map
          (fun r => Real.log r / Real.log ((100 : ℝ) / 1)) = [1 / 2, 1 / 2] := by
      show ([10 / 1, 100 / 10] : List ℝ).map
        (fun r => Real.log r / Real.log ((100 : ℝ) / 1)) = [1 / 2, 1 / 2]
      rw [show (10 : ℝ) / 1 = 10 by norm_num, show (100 : ℝ) / 10 = 10 by norm_num,
        show (100 : ℝ) / 1 = 100 by norm_num, List.map_cons, List.map_cons, List.map_nil]
      have hhalf : Real.log 10 / Real.log 100 = 1 / 2 := by
        rw [show (100 : ℝ) = 10 ^ 2 by norm_num, Real.log_pow, Nat.cast_ofNat]
        field_simp
        ring
      rw [hhalf]
    rw [hpp, huni [1 / 2, 1 / 2] (by simp)
      (by
        intro x hx
        rcases List.mem_cons.mp hx with h | h
        · rw [h]
          norm_num
        · simp only [List.mem_singleton] at h
          rw [h]
          norm_num)]

/-- Witness for C3 at `lmc = lmc0` (whose `C` is constantly `0`, so the
uniform contract holds) and `periods = [1, 2, 4]`. -/
theorem gap_complexity_formula_witness :
    (∃ P : List ℝ, P.Perm ([1, 2, 4] : List ℝ) ∧ P.Sorted (· ≤ ·) ∧
      gap_complexity lmc0 [1, 2, 4] true =
        (some (lmc0.C ((List.range (([1, 2, 4] : List ℝ).length - 1)).map fun i =>
          Real.log (P.getD (i + 1) 0 / P.getD i 0) /
            Real.log (P.getD (([1, 2, 4] : List ℝ).length - 1) 0 / P.getD 0 0))), [])) ∧
    gap_complexity lmc0 [1, 10, 100] true = (some 0, []) :=
  gap_complexity_formula lmc0 true (fun _ _ _ => rfl) [1, 2, 4] (by simp)
    (by
      intro p hp
      simp only [List.mem_cons, List.not_mem_nil, or_false] at hp
      rcases hp with h | h | h <;> rw [h] <;> norm_num)
    ⟨1, by simp, 2, by simp, by norm_num⟩

/-- `List.orderedInsert` of a positively rescaled element into a positively
rescaled list commutes with the rescaling. -/
theorem orderedInsert_map_mul (k : ℝ) (hk : 0 < k) (a : ℝ) :
    ∀ l : List ℝ, List.orderedInsert (· ≤ ·) (k * a) (l.map fun x => k * x) =
      (List.orderedInsert (· ≤ ·) a l).map fun x => k * x := by
  intro l
  induction l with
  | nil => rfl
  | cons b l ih =>
    by_cases h : a ≤ b
    · have hk2 : k * a ≤ k * b := mul_le_mul_of_nonneg_left h hk.le
      simp only [List.map_cons, List.orderedInsert, if_pos h, if_pos hk2]
    · have hk' : ¬k * a ≤ k * b := fun hc => h (le_of_mul_le_mul_left hc hk)
      simp only [List.map_cons, List.orderedInsert, if_neg h, if_neg hk', ih]

/-- `List.insertionSort` commutes with positive rescaling. -/
theorem insertionSort_map_mul (k : ℝ) (hk : 0 < k) :
    ∀ l : List ℝ, List.insertionSort (· ≤ ·) (l.map fun x => k * x) =
      (List.insertionSort (· ≤ ·) l).map fun x => k * x := by
  intro l
  induction l with
  | nil => rfl
  | cons a l ih =>
    simp only [List.map_cons, List.insertionSort, ih, orderedInsert_map_mul k hk]

/-- Folding `max` commutes with nonnegative rescaling. -/
theorem foldl_max_map_mul (k : ℝ) (hk : 0 ≤ k) :
    ∀ (l : List ℝ) (x : ℝ), (l.map fun y => k * y).foldl max (k * x) = k * l.foldl max x := by
  intro l
  induction l with
  | nil => intro x; rfl
  | cons b l ih =>
    intro x
    show (l.map fun y => k * y).foldl max (max (k * x) (k * b)) = _
    rw [← mul_max_of_nonneg _ _ hk, ih (max x b)]
    rfl

/-- Folding `min` commutes with nonnegative rescaling. -/
theorem foldl_min_map_mul (k : ℝ) (hk : 0 ≤ k) :
    ∀ (l : List ℝ) (x : ℝ), (l.map fun y => k * y).foldl min (k * x) = k * l.foldl min x := by
  intro l
  induction l with
  | nil => intro x; rfl
  | cons b l ih =>
    intro x
    show (l.map fun y => k * y).foldl min (min (k * x) (k * b)) = _
    rw [← mul_min_of_nonneg _ _ hk, ih (min x b)]
    rfl

/-- `np.max` commutes with nonnegative rescaling. -/
theorem np_max_map_mul (k : ℝ) (hk : 0 ≤ k) (l : List ℝ) :
    np_max (l.map fun y => k * y) = k * np_max l := by
  cases l with
  | nil => simp [np_max]
  | cons x l => exact foldl_max_map_mul k hk l x

/-- `np.min` commutes with nonnegative rescaling. -/
theorem np_min_map_mul (k : ℝ) (hk : 0 ≤ k) (l : List ℝ) :
    np_min (l.map fun y => k * y) = k * np_min l := by
  cases l with
  | nil => simp [np_min]
  | cons x l => exact foldl_min_map_mul k hk l x

/-- Claim C10: `gap_complexity` is invariant under uniform positive
rescaling of the period array, since the gap fractions depend only on period
ratios. -/
theorem gap_complexity_scale_invariant (lmc : LMC) (periods : List ℝ) (k : ℝ) (warn : Bool)
    (hlen : 3 ≤ periods.length) (hpos : ∀ p ∈ periods, 0 < p) (hk : 0 < k)
    (hne : ∃ p ∈ periods, ∃ q ∈ periods, p ≠ q) :
    gap_complexity lmc (periods.map fun p => k * p) warn =
      gap_complexity lmc periods warn := by
  have hg1 : ¬(periods.map fun p => k * p).length < 3 := by
    rw [List.length_map]
    omega
  rw [gap_complexity_body lmc _ warn hg1, gap_complexity_body lmc periods warn (by omega),
    insertionSort_map_mul k hk, ← List.map_tail, ← List.map_dropLast, zipWith_map_both,
    np_max_map_mul k hk.le, np_min_map_mul k hk.le, mul_div_mul_left _ _ hk.ne']
  have hfun : (fun a b : ℝ => (k * a) / (k * b)) = (· / ·) := by
    funext a b
    rw [mul_div_mul_left _ _ hk.ne']
  rw [hfun]

/-- Witness for C10 at `periods = [1, 2, 4]`, `k = 3`. -/
theorem gap_complexity_scale_invariant_witness :
    gap_complexity lmc0 (([1, 2, 4] : List ℝ).map fun p => 3 * p) true =
      gap_complexity lmc0 [1, 2, 4] true :=
  gap_complexity_scale_invariant lmc0 [1, 2, 4] 3 true (by simp)
    (by
      intro p hp
      simp only [List.mem_cons, List.not_mem_nil, or_false] at hp
      rcases hp with h | h | h <;> rw [h] <;> norm_num)
    (by norm_num)
    ⟨1, by simp, 2, by simp, by norm_num⟩

/-- Two key-sorted lists of pairs that are permutations of each other and
whose keys are duplicate-free are equal. -/
theorem eq_of_perm_sorted_nodup_keys :
    ∀ xs ys : List (ℝ × ℝ), xs.Perm ys → xs.Sorted keyLE → ys.Sorted keyLE →
      (xs.map Prod.fst).Nodup → xs = ys := by
  intro xs
  induction xs with
  | nil =>
    intro ys h _ _ _
    exact h.nil_eq
  | cons a xs ih =>
    intro ys h hs1 hs2 hnd
    cases ys with
    | nil => exact absurd h.eq_nil (by simp)
    | cons b ys =>
      have hab : a = b := by
        rcases List.mem_cons.mp (h.symm.subset (List.mem_cons_self b ys)) with hba | hbx
        · exact hba.symm
        · rcases List.mem_cons.mp (h.subset (List.mem_cons_self a xs)) with hab | hay
          · exact hab
          · have h1 : a.1 ≤ b.1 := (List.sorted_cons.mp hs1).1 b hbx
            have h2 : b.1 ≤ a.1 := (List.sorted_cons.mp hs2).1 a hay
            have hmem : a.1 ∈ xs.map Prod.fst := by
              rw [le_antisymm h1 h2]
              exact List.mem_map_of_mem Prod.fst hbx
            have hnd' : a.1 ∉ xs.map Prod.fst :=
              (List.nodup_cons.mp (by simpa using hnd)).1
            exact absurd hmem hnd'
      subst hab
      have hnd2 : (xs.map Prod.fst).Nodup :=
        (List.nodup_cons.mp (by simpa using hnd)).2
      rw [ih ys (List.Perm.cons_inv h) (List.sorted_cons.mp hs1).2
        (List.sorted_cons.mp hs2).2 hnd2]

/-- Amended claim C6: `gap_complexity` is invariant under any permutation of
the period array, and `characteristic_spacing` is invariant under any
simultaneous permutation of the period and mass arrays provided the periods
are pairwise distinct.  (With tied periods the mass pairing after the sort
depends on the input order; see the counterexample.) -/
theorem sorting_invariance_amended (p1 m1 p2 m2 : List ℝ) (Mstar : ℝ) (warn : Bool)
    (lmc : LMC) (q1 q2 : List ℝ)
    (hl1 : m1.length = p1.length) (hl2 : m2.length = p2.length)
    (hperm : (p1.zip m1).Perm (p2.zip m2)) (hnd : p1.Nodup) (hq : q1.Perm q2) :
    characteristic_spacing p1 m1 Mstar warn = characteristic_spacing p2 m2 Mstar warn ∧
    gap_complexity lmc q1 warn = gap_complexity lmc q2 warn := by
  have hz1 : (p1.zip m1).length = p1.length := by
    rw [List.length_zip, hl1, min_self]
  have hz2 : (p2.zip m2).length = p2.length := by
    rw [List.length_zip, hl2, min_self]
  have hplen : p1.length = p2.length := by
    rw [← hz1, hperm.length_eq, hz2]
  constructor
  · have hsortEq : List.insertionSort keyLE (p1.zip m1) =
        List.insertionSort keyLE (p2.zip m2) := by
      apply eq_of_perm_sorted_nodup_keys
      · exact (List.perm_insertionSort keyLE (p1.zip m1)).trans
          (hperm.trans (List.perm_insertionSort keyLE (p2.zip m2)).symm)
      · exact List.sorted_insertionSort keyLE (p1.zip m1)
      · exact List.sorted_insertionSort keyLE (p2.zip m2)
      · have hmapfst : (p1.zip m1).map Prod.fst = p1 :=
          List.map_fst_zip p1 m1 (by omega)
        have hpermfst : ((List.insertionSort keyLE (p1.zip m1)).map Prod.fst).Perm p1 := by
          have h1 := (List.perm_insertionSort keyLE (p1.zip m1)).map Prod.fst
          rw [hmapfst] at h1
          exact h1
        exact hpermfst.nodup_iff.mpr hnd
    unfold characteristic_spacing
    rw [hplen, hsortEq]
  · have hsQ : List.insertionSort (· ≤ ·) q1 = List.insertionSort (· ≤ ·) q2 :=
      List.eq_of_perm_of_sorted
        ((List.perm_insertionSort _ q1).trans (hq.trans (List.perm_insertionSort _ q2).symm))
        (List.sorted_insertionSort _ q1) (List.sorted_insertionSort _ q2)
    unfold gap_complexity
    rw [hq.length_eq, hsQ]

/-- Witness for the amended C6 at distinct periods `[1, 2]` with masses
`[3, 4]`, against the swapped arrays `[2, 1]`, `[4, 3]`, and the period
lists `[5, 6]` and `[6, 5]` for `gap_complexity`. -/
theorem sorting_invariance_amended_witness :
    characteristic_spacing [1, 2] [3, 4] 1 true = characteristic_spacing [2, 1] [4, 3] 1 true ∧
    gap_complexity lmc0 [5, 6] true = gap_complexity lmc0 [6, 5] true :=
  sorting_invariance_amended [1, 2] [3, 4] [2, 1] [4, 3] 1 true lmc0 [5, 6] [6, 5]
    (by simp) (by simp)
    (by
      show (([(1, 3), (2, 4)] : List (ℝ × ℝ))).Perm [(2, 4), (1, 3)]
      exact List.Perm.swap (2, 4) (1, 3) [])
    (by norm_num [List.nodup_cons])
    (List.Perm.swap 6 5 [])

/-- Claim C4: `calculate_duration` equals `term3 * term2` with
`term3 = ((3*period)/(G*rho*pi^2))^(1/3)` and
`term2 = sqrt((1+rprs)^2 - ((G*rho)/(3*pi))^(2/3) * period^(4/3) * cosi^2)`
for `G = BIGG/RSUN^3*MSUN*86400^2`, and at `cosi = 0` it reduces to the
central-transit formula `term3 * (1+rprs)`. -/
theorem calculate_duration_spec_formula (period rho rprs cosi : ℝ)
    (hp : 0 < period) (hr : 0 < rho) (hq : 0 < rprs) :
    calculate_duration period rho rprs cosi = duration_spec period rho rprs cosi ∧
    calculate_duration period rho rprs 0 =
      ((3 * period) / (G_spec * rho * Real.pi ^ 2)) ^ ((1 : ℝ) / 3) * (1 + rprs) := by
  have hG : (BIGG / RSUN ^ 3 * MSUN * ((24 * 3600 : ℝ)) ^ 2) = G_spec := by
    unfold G_spec
    norm_num
  constructor
  · simp only [calculate_duration, duration_spec, hG, Real.sqrt_eq_rpow]
  · simp only [calculate_duration, hG]
    have h0 : period ^ ((4 : ℝ) / 3) * (0 : ℝ) ^ 2 = 0 := by ring
    rw [h0, mul_zero, sub_zero, ← Real.sqrt_eq_rpow,
      Real.sqrt_sq (by linarith : (0 : ℝ) ≤ 1 + rprs)]

/-- Witness for C4 at `period = 1`, `rho = 1`, `rprs = 1`, `cosi = 1`. -/
theorem calculate_duration_spec_formula_witness :
    calculate_duration 1 1 1 1 = duration_spec 1 1 1 1 ∧
    calculate_duration 1 1 1 0 =
      ((3 * 1) / (G_spec * 1 * Real.pi ^ 2)) ^ ((1 : ℝ) / 3) * (1 + 1) :=
  calculate_duration_spec_formula 1 1 1 1 (by norm_num) (by norm_num) (by norm_num)

/-- Claim C8: `dynamical_mass mp Mstar = sum(mp)/(332948.6*Mstar)`; in
particular it is `0` on the empty list and `m/(332948.6*Mstar)` on a
singleton. -/
theorem dynamical_mass_spec (mp : List ℝ) (m Mstar : ℝ) (hM : 0 < Mstar) :
    dynamical_mass mp Mstar = mp.sum / (MSME * Mstar) ∧
    dynamical_mass [] Mstar = 0 ∧
    dynamical_mass [m] Mstar = m / (MSME * Mstar) := by
  refine ⟨?_, ?_, ?_⟩
  · unfold dynamical_mass np_sum
    rw [div_div]
  · unfold dynamical_mass np_sum
    simp
  · unfold dynamical_mass np_sum
    simp [div_div]

/-- Witness for C8 at `mp = [1, 2]`, `m = 5`, `Mstar = 1`. -/
theorem dynamical_mass_spec_witness :
    dynamical_mass [1, 2] 1 = ([1, 2] : List ℝ).sum / (MSME * 1) ∧
    dynamical_mass [] 1 = 0 ∧
    dynamical_mass [(5 : ℝ)] 1 = 5 / (MSME * 1) :=
  dynamical_mass_spec [1, 2] 5 1 (by norm_num)

/-- Claim C5: `mass_partitioning` is invariant under uniform rescaling of the
mass vector by a positive scalar, because the normalized vector
`masses/sum(masses)` passed to the collaborator `D` is scale-free. -/
theorem mass_partitioning_scale_invariant (lmc : LMC) (masses : List ℝ) (k : ℝ)
    (hsum : masses.sum ≠ 0) (hk : 0 < k) :
    mass_partitioning lmc (masses.map fun x => k * x) = mass_partitioning lmc masses := by
  unfold mass_partitioning np_sum
  congr 1
  have hs : ∀ l : List ℝ, (l.map fun x => k * x).sum = k * l.sum := by
    intro l
    induction l with
    | nil => simp
    | cons a l ih =>
      simp only [List.map_cons, List.sum_cons, ih]
      ring
  have hs := hs masses
  rw [List.map_map]
  simp only [hs]
  have hfun : ((fun m => m / (k * masses.sum)) ∘ fun x => k * x) =
      fun m => m / masses.sum := by
    funext m
    simp only [Function.comp_apply]
    rw [mul_div_mul_left _ _ hk.ne']
  rw [hfun]

/-- Witness for C5 at `masses = [1, 2]`, `k = 2`. -/
theorem mass_partitioning_scale_invariant_witness :
    mass_partitioning lmc0 (([1, 2] : List ℝ).map fun x => 2 * x) =
      mass_partitioning lmc0 [1, 2] :=
  mass_partitioning_scale_invariant lmc0 [1, 2] 2 (by norm_num) (by norm_num)

/-- Claim C2: with fewer than 2 periods `characteristic_spacing` returns the
NaN sentinel, and with fewer than 3 periods `gap_complexity` returns the NaN
sentinel; the warning is emitted exactly when the warn flag is set, the
result is produced without any exception for arbitrary remaining arguments
(including degenerate ones), and the main computation is not consulted. -/
theorem small_n_returns_nan (periods mp qs : List ℝ) (Mstar : ℝ) (warn : Bool) (lmc : LMC)
    (h1 : periods.length < 2) (h2 : qs.length < 3) :
    characteristic_spacing periods mp Mstar warn =
      (none, if warn then ["Characteristic spacing is undefined for S < 2; returning NaN"]
        else []) ∧
    gap_complexity lmc qs warn =
      (none, if warn then ["Complexity is undefined for N < 3; returning NaN"] else []) := by
  constructor
  · unfold characteristic_spacing
    rw [if_pos h1]
  · unfold gap_complexity
    rw [if_pos h2]

/-- Witness for C2: a 1-planet call of `characteristic_spacing` (with an
empty mass array and a zero stellar mass) and a 2-planet call of
`gap_complexity`, both with the warn flag on. -/
theorem small_n_returns_nan_witness :
    characteristic_spacing [1] [] 0 true =
      (none, ["Characteristic spacing is undefined for S < 2; returning NaN"]) ∧
    gap_complexity lmc0 [1, 2] true =
      (none, ["Complexity is undefined for N < 3; returning NaN"]) := by
  have h := small_n_returns_nan [1] [] [1, 2] 0 true lmc0 (by simp) (by simp)
  simpa using h

/-- Claim C7: `calculate_flatness` equals the population (divide-by-N)
standard deviation of the elementwise differences divided by the root mean
square of the observed durations. -/
theorem calculate_flatness_popstd (data_dur model_dur : List ℝ)
    (hlen : model_dur.length = data_dur.length) (hnz : ∃ x ∈ data_dur, x ≠ 0) :
    calculate_flatness data_dur model_dur =
      pop_std (List.zipWith (· - ·) data_dur model_dur) /
        Real.sqrt ((data_dur.map fun x => x ^ 2).sum / (data_dur.length : ℝ)) := by
  unfold calculate_flatness np_std np_mean pop_std
  simp only [sq_abs, List.length_map]

/-- Witness for C7 at `data_dur = [1, 2]`, `model_dur = [0, 0]`. -/
theorem calculate_flatness_popstd_witness :
    calculate_flatness [1, 2] [0, 0] =
      pop_std (List.zipWith (· - ·) [1, 2] [0, 0]) /
        Real.sqrt ((([1, 2] : List ℝ).map fun x => x ^ 2).sum /
          (([1, 2] : List ℝ).length : ℝ)) :=
  calculate_flatness_popstd [1, 2] [0, 0] (by simp)
    ⟨1, by simp, by norm_num⟩

/-- Counterexample to C6 as stated: with tied periods `[1, 1, 2]`, the
transposition of the first two planets fixes the period array but swaps the
mass array, and `characteristic_spacing` takes different values on the two
inputs (the mass paired with the third planet in the second adjacent pair
changes), so the measure is not invariant under every permutation. -/
theorem characteristic_spacing_not_perm_invariant :
    characteristic_spacing [1, 1, 2] [7, 1, 1] (1 / (3 * MSME)) true ≠
      characteristic_spacing [1, 1, 2] [1, 7, 1] (1 / (3 * MSME)) true := by
  have hz1 : ([1, 1, 2] : List ℝ).zip ([7, 1, 1] : List ℝ) = [(1, 7), (1, 1), (2, 1)] := rfl
  have hz2 : ([1, 1, 2] : List ℝ).zip ([1, 7, 1] : List ℝ) = [(1, 1), (1, 7), (2, 1)] := rfl
  have hs1 : List.Sorted keyLE [((1 : ℝ), (7 : ℝ)), (1, 1), (2, 1)] := by
    simp [List.sorted_cons, keyLE]
  have hs2 : List.Sorted keyLE [((1 : ℝ), (1 : ℝ)), (1, 7), (2, 1)] := by
    simp [List.sorted_cons, keyLE]
  intro heq
  rw [characteristic_spacing_body [1, 1, 2] [7, 1, 1] _ true (by simp),
    characteristic_spacing_body [1, 1, 2] [1, 7, 1] _ true (by simp),
    hz1, hz2, hs1.insertionSort_eq, hs2.insertionSort_eq,
    delta_list_eq _ _ _ (by simp), delta_list_eq _ _ _ (by simp)] at heq
  simp only [List.map_cons, List.map_nil, List.length_cons, List.length_nil,
    List.range_succ, List.range_zero, List.nil_append, List.cons_append,
    hill_delta, np_mean, List.getD_cons_zero, List.getD_cons_succ,
    List.sum_cons, List.sum_nil, sub_self, zero_div, zero_add, add_zero,
    Prod.mk.injEq, Option.some.injEq, and_true] at heq
  have hden : 3 * (1 / (3 * MSME)) * MSME = 1 := by
    unfold MSME
    norm_num
  rw [hden] at heq
  norm_num at heq
  set a1 := P_to_a 1 (MSME⁻¹ * (1 / 3)) with hA1
  set a2 := P_to_a 2 (MSME⁻¹ * (1 / 3)) with hA2
  have hb1 : (0 : ℝ) < ((1 : ℝ) / 365.24) ^ 2 * (1 / (MSME⁻¹ * (1 / 3))) := by
    unfold MSME
    norm_num
  have hb2 : ((1 : ℝ) / 365.24) ^ 2 * (1 / (MSME⁻¹ * (1 / 3))) <
      ((2 : ℝ) / 365.24) ^ 2 * (1 / (MSME⁻¹ * (1 / 3))) := by
    unfold MSME
    norm_num
  have ha1 : 0 < a1 := by
    rw [hA1]
    show 0 < 215.05 * (((1 : ℝ) / 365.24) ^ 2 * (1 / (MSME⁻¹ * (1 / 3)))) ^ ((1 : ℝ) / 3)
    exact mul_pos (by norm_num) (Real.rpow_pos_of_pos hb1 _)
  have ha12 : a1 < a2 := by
    rw [hA1, hA2]
    show 215.05 * (((1 : ℝ) / 365.24) ^ 2 * (1 / (MSME⁻¹ * (1 / 3)))) ^ ((1 : ℝ) / 3) <
      215.05 * (((2 : ℝ) / 365.24) ^ 2 * (1 / (MSME⁻¹ * (1 / 3)))) ^ ((1 : ℝ) / 3)
    exact mul_lt_mul_of_pos_left (Real.rpow_lt_rpow hb1.le hb2 (by norm_num)) (by norm_num)
  have hs : 0 < (a1 + a2) / 2 := by linarith
  have ht : 0 < a2 - a1 := by linarith
  have h8 : (8 : ℝ) ^ ((1 : ℝ) / 3) = 2 := by
    rw [show (8 : ℝ) = 2 ^ (3 : ℕ) by norm_num, ← Real.rpow_natCast 2 3,
      ← Real.rpow_mul (by norm_num : (0 : ℝ) ≤ 2)]
    norm_num
  have hc : (2 : ℝ) ^ ((1 : ℝ) / 3) < 2 := by
    have h := Real.rpow_lt_rpow_of_exponent_lt (by norm_num : (1 : ℝ) < 2)
      (by norm_num : (1 : ℝ) / 3 < 1)
    rwa [Real.rpow_one] at h
  have hcpos : (0 : ℝ) < 2 ^ ((1 : ℝ) / 3) := Real.rpow_pos_of_pos (by norm_num) _
  rw [h8] at heq
  have heq2 : (a2 - a1) / (2 ^ ((1 : ℝ) / 3) * ((a1 + a2) / 2)) =
      (a2 - a1) / (2 * ((a1 + a2) / 2)) := by linarith
  have hd1 : (0 : ℝ) < 2 ^ ((1 : ℝ) / 3) * ((a1 + a2) / 2) := mul_pos hcpos hs
  have hd2 : (0 : ℝ) < 2 * ((a1 + a2) / 2) := by linarith
  rw [div_eq_div_iff hd1.ne' hd2.ne'] at heq2
  have h2 := mul_left_cancel₀ (ne_of_gt ht) heq2
  have h3 := mul_right_cancel₀ (ne_of_gt hs) h2
  linarith


end
